import Mathlib

/-!
Verification development for the obsidian-auto-furigana plugin.

The definitions below are a shallow embedding of the plugin's sources:
`src/furiganaLivePreviewMode.ts` (fence detection, inline code-span scanning,
caret buffers, decoration building, the view-plugin update trigger, the
ruby-widget DOM rendering), `src/skipOption.ts` (per-document skip flag),
and `src/furiganaReadingMode.ts` (reading-mode DOM traversal).  Text is
`List Char`; a document is a list of lines; machine strings and DOM nodes
are modelled by plain inductive types.  The modules `src/regex.ts` and
`src/furiganaUtils.ts` are not present in the sources; the definitions that
stand in for them are marked `Modelled from the spec:` in their doc comments.
-/

/-- A line of text, as a list of characters. -/
abbrev Line := List Char

/-- A document: the list of its lines (CodeMirror numbers them from 1;
here line `n` of the code is index `n - 1`). -/
abbrev Doc := List Line

/-- The backtick character (U+0060). -/
def btick : Char := Char.ofNat 96

/-- Character class of `AUTO_QUICK` in src/furiganaLivePreviewMode.ts:
the ranges U+3040-U+30FF, U+31F0-U+31FF, U+3400-U+4DBF, U+4E00-U+9FFF. -/
def isJa (c : Char) : Bool :=
  decide (0x3040 ≤ c.toNat ∧ c.toNat ≤ 0x30FF) ||
  decide (0x31F0 ≤ c.toNat ∧ c.toNat ≤ 0x31FF) ||
  decide (0x3400 ≤ c.toNat ∧ c.toNat ≤ 0x4DBF) ||
  decide (0x4E00 ≤ c.toNat ∧ c.toNat ≤ 0x9FFF)

/-- Character class of the kana test in `RubyWidget.toDOM`:
`^[぀-ヿー]+$`, tested per character (ー is U+30FC, already inside
the range; the disjunct is kept for fidelity to the written class). -/
def isKana (c : Char) : Bool :=
  decide (0x3040 ≤ c.toNat ∧ c.toNat ≤ 0x30FF) || c == 'ー'

/-- JavaScript `\s` / `trimStart` whitespace, restricted to the ASCII core
(space, tab, newline, carriage return, vertical tab, form feed); the
Unicode additions of `\s` play no role in the claims. -/
def isWS (c : Char) : Bool :=
  c == ' ' || c == '\t' || c == '\n' || c == '\r' || c == '\x0b' || c == '\x0c'

/-- Quick Japanese-presence test for one line (`AUTO_QUICK.test(text)`). -/
def lineQuick (t : Line) : Bool := t.any isJa

/-- Length of the longest prefix of `l` whose characters satisfy `p`
(the inner `while` loops counting delimiter runs). -/
def takeRun (p : Char → Bool) : List Char → Nat
  | [] => 0
  | c :: rest => if p c then takeRun p rest + 1 else 0

/-- Length of the backtick run starting right after a first backtick. -/
def btRun (l : List Char) : Nat := takeRun (fun x => x == btick) l

/-- One alternative of the fence regex: after trimming, a run of at least
three `f` characters followed by whitespace or end of line.  Backtracking
inside the regex can only succeed at the maximal run, because every
character inside the run is the fence character itself, not whitespace. -/
def fenceHead (f : Char) (t : Line) : Bool :=
  decide (3 ≤ takeRun (fun x => x == f) t) &&
    (decide (t.length = takeRun (fun x => x == f) t) ||
      (match t.get? (takeRun (fun x => x == f) t) with
       | some c => isWS c
       | none => false))

/-- `lineTogglesFence` from src/furiganaLivePreviewMode.ts lines 38-41:
the fence regex tested against `text.trimStart()`, for backtick and
tilde fences. -/
def lineTogglesFence (text : Line) : Bool :=
  fenceHead btick (text.dropWhile isWS) || fenceHead '~' (text.dropWhile isWS)

/-- Inner loop of `inlineBacktickRanges`: look for a backtick run of exactly
`n` starting at absolute index `i`; on success return the index where the
closing run starts together with the characters following the run.  The
first argument is recursion fuel; every step consumes at least one
character, so any fuel at least the list length gives the loop's value. -/
def findClose (n : Nat) : Nat → List Char → Nat → Option (Nat × List Char)
  | _, [], _ => none
  | 0, _ :: _, _ => none
  | fuel + 1, c :: rest, i =>
    if c == btick then
      if btRun rest + 1 = n then some (i, rest.drop (btRun rest))
      else findClose n fuel (rest.drop (btRun rest)) (i + (btRun rest + 1))
    else findClose n fuel rest (i + 1)

/-- Outer loop of `inlineBacktickRanges` (same fuel convention): scan the
line, and for each opening backtick run search for a closing run of
exactly the same length; a range is recorded only when the closing run is
found (an unterminated opener ends the scan with no range recorded for
it). -/
def ibrAux : Nat → List Char → Nat → List (Nat × Nat)
  | _, [], _ => []
  | 0, _ :: _, _ => []
  | fuel + 1, c :: rest, i =>
    if c == btick then
      match findClose (btRun rest + 1) fuel (rest.drop (btRun rest))
              (i + (btRun rest + 1)) with
      | some (cs, rest2) =>
          (i, cs + (btRun rest + 1)) :: ibrAux fuel rest2 (cs + (btRun rest + 1))
      | none => []
    else ibrAux fuel rest (i + 1)

/-- `inlineBacktickRanges` from src/furiganaLivePreviewMode.ts lines 48-87:
the `[from, to)` offsets of inline code spans on one line. -/
def inlineBacktickRanges (t : Line) : List (Nat × Nat) := ibrAux t.length t 0

/-- The manual-override bracket style (`NotationStyle` in src/regex.ts /
src/settings.ts, values `curly`, `square`, `none`; the word is avoided in
Lean identifiers here). -/
inductive Style where
  | curly
  | square
  | nostyle
  deriving DecidableEq

/-- Split a character list at every pipe character (the reading part of a
manual override is pipe-separated).  Always returns at least one part. -/
def splitPipe : List Char → List (List Char)
  | [] => [[]]
  | c :: rest =>
    if c == '|' then [] :: splitPipe rest
    else
      match splitPipe rest with
      | h :: t => (c :: h) :: t
      | [] => [[c]]

/-- Modelled from the spec: the validity test of the Notation Parser for the
body of a manual-override span (src/regex.ts and src/furiganaUtils.ts are
absent from the sources).  The body is `base|r1|...|rk`; readings must be
non-empty and phonetic (kana), the base non-empty, and a multi-segment
reading list must have exactly one segment per base character; a single
segment covers the whole base.  Returns the base and reading segments of a
valid span, `none` for a malformed one. -/
def parseManualBody (body : List Char) : Option (Line × List Line) :=
  match splitPipe body with
  | base :: r :: rs =>
    if base ≠ [] ∧ (r :: rs).all (fun s => !s.isEmpty && s.all isKana) ∧
        ((r :: rs).length = 1 ∨ (r :: rs).length = base.length)
    then some (base, r :: rs) else none
  | _ => none

/-- Split `l` at the first occurrence of `cc`, returning the part before it
and the part after it. -/
def breakAt (cc : Char) : List Char → Option (List Char × List Char)
  | [] => none
  | c :: rest =>
    if c == cc then some ([], rest)
    else (breakAt cc rest).map (fun p => (c :: p.1, p.2))

/-- Modelled from the spec: the scanning loop of the Notation Parser
(src/regex.ts is absent from the sources).  Finds, leftmost and
non-overlapping, the spans `oc · body · cc` whose body is a valid manual
override; scanning resumes after a matched span, and right after the
opening bracket of a candidate that fails validation, so malformed spans
fall through as literal text. -/
def manualAux (oc cc : Char) : Nat → List Char → Nat → List (Nat × Nat)
  | _, [], _ => []
  | 0, _ :: _, _ => []
  | fuel + 1, c :: rest, i =>
    if c == oc then
      match breakAt cc rest with
      | some (body, rest2) =>
        if (parseManualBody body).isSome then
          (i, i + body.length + 2) ::
            manualAux oc cc fuel rest2 (i + body.length + 2)
        else manualAux oc cc fuel rest (i + 1)
      | none => manualAux oc cc fuel rest (i + 1)
    else manualAux oc cc fuel rest (i + 1)

/-- Modelled from the spec: the matches of `getManualRegex(style)` on one
line, as `[from, to)` offsets; the `disabled` style produces no matches. -/
def manualMatches (style : Style) (t : Line) : List (Nat × Nat) :=
  match style with
  | .curly => manualAux '{' '}' t.length t 0
  | .square => manualAux '[' ']' t.length t 0
  | .nostyle => []

/-- Modelled from the spec: the matches of `getAutoRegex()` on one line —
maximal runs of annotable (Japanese) characters, using the same character
class as `AUTO_QUICK` (same fuel convention as the other scanners). -/
def autoAux : Nat → List Char → Nat → List (Nat × Nat)
  | _, [], _ => []
  | 0, _ :: _, _ => []
  | fuel + 1, c :: rest, i =>
    if isJa c then
      (i, i + (takeRun isJa rest + 1)) ::
        autoAux fuel (rest.drop (takeRun isJa rest)) (i + (takeRun isJa rest + 1))
    else autoAux fuel rest (i + 1)

/-- Modelled from the spec: all automatic-candidate matches of a line. -/
def autoMatches (t : Line) : List (Nat × Nat) := autoAux t.length t 0

/-- `overlaps` from src/furiganaLivePreviewMode.ts lines 90-92: half-open
interval intersection.  Positions are integers because caret buffers may
extend below zero. -/
def overlaps (aFrom aTo bFrom bTo : Int) : Bool :=
  decide (aFrom < bTo) && decide (bFrom < aTo)

/-- `caretBuffer` from src/furiganaLivePreviewMode.ts lines 95-97. -/
def caretBuffer (pos size : Int) : Int × Int := (pos - size, pos + size)

/-- One selection range of the editor state (anchor and head positions). -/
structure SelRange where
  anchor : Nat
  head : Nat
  deriving DecidableEq

/-- The no-decoration zones of `buildDecorations` (lines 150-157): around
each selection endpoint, a caret buffer of half-width 1, or 2 while IME
composition is active. -/
def noDecorZones (sel : List SelRange) (composing : Bool) : List (Int × Int) :=
  (sel.map (fun r =>
    [(min (caretBuffer r.anchor (if composing then 2 else 1)).1
          (caretBuffer r.anchor (if composing then 2 else 1)).2,
      max (caretBuffer r.anchor (if composing then 2 else 1)).1
          (caretBuffer r.anchor (if composing then 2 else 1)).2),
     (min (caretBuffer r.head (if composing then 2 else 1)).1
          (caretBuffer r.head (if composing then 2 else 1)).2,
      max (caretBuffer r.head (if composing then 2 else 1)).1
          (caretBuffer r.head (if composing then 2 else 1)).2)])).flatten

/-- `hitsCode` inside `buildDecorations` (lines 175-176): whether a
relative span overlaps some inline code span of the line. -/
def hitsCode (codeSpans : List (Nat × Nat)) (a b : Nat) : Bool :=
  codeSpans.any (fun r => overlaps a b r.1 r.2)

/-- The `noDecor.some (...)` test of `buildDecorations` (lines 190, 216):
whether an absolute span overlaps some caret-buffer zone. -/
def zoneHit (zones : List (Int × Int)) (a b : Nat) : Bool :=
  zones.any (fun z => overlaps a b z.1 z.2)

/-- Whether a decoration came from the manual or the automatic pass. -/
inductive MKind where
  | manual
  | auto
  deriving DecidableEq

/-- One replacement decoration: absolute span and the matched text handed
to `RubyWidget`. -/
structure Deco where
  daFrom : Nat
  daTo : Nat
  kind : MKind
  mtext : Line
  deriving DecidableEq

/-- The substring `[a, b)` of a line (the match text `m[0]`). -/
def sliceOf (t : Line) (a b : Nat) : Line := (t.drop a).take (b - a)

/-- The manual pass of `buildDecorations` on one line (lines 178-202):
every manual match that overlaps neither an inline code span nor a
caret-buffer zone becomes a replacement decoration. -/
def manualDecos (style : Style) (zones : List (Int × Int)) (lineFrom : Nat)
    (t : Line) : List Deco :=
  ((manualMatches style t).filter (fun m =>
      !hitsCode (inlineBacktickRanges t) m.1 m.2 &&
      !zoneHit zones (lineFrom + m.1) (lineFrom + m.2))).map
    (fun m => ⟨lineFrom + m.1, lineFrom + m.2, .manual, sliceOf t m.1 m.2⟩)

/-- The automatic pass of `buildDecorations` on one line (lines 204-228);
note that it filters only against code spans and caret zones, exactly like
the manual pass. -/
def autoDecos (style : Style) (zones : List (Int × Int)) (lineFrom : Nat)
    (t : Line) : List Deco :=
  ((autoMatches t).filter (fun m =>
      !hitsCode (inlineBacktickRanges t) m.1 m.2 &&
      !zoneHit zones (lineFrom + m.1) (lineFrom + m.2))).map
    (fun m => ⟨lineFrom + m.1, lineFrom + m.2, .auto, sliceOf t m.1 m.2⟩)

/-- Matches of one kind on a line (used to state claims uniformly). -/
def matchesOf (k : MKind) (style : Style) (t : Line) : List (Nat × Nat) :=
  match k with
  | .manual => manualMatches style t
  | .auto => autoMatches t

/-- The decoration built for a match of kind `k`. -/
def mkDeco (k : MKind) (lineFrom : Nat) (t : Line) (m : Nat × Nat) : Deco :=
  ⟨lineFrom + m.1, lineFrom + m.2, k, sliceOf t m.1 m.2⟩

/-- The decorations contributed by one scanned line: the manual pass runs
first, then the automatic pass, in the order `builder.add` is called. -/
def scanLine (style : Style) (zones : List (Int × Int)) (lineFrom : Nat)
    (t : Line) : List Deco :=
  manualDecos style zones lineFrom t ++ autoDecos style zones lineFrom t

/-- The visible-line loop of `buildDecorations` (lines 163-233): process
lines while `line.from ≤ visTo`; toggle the fence state before scanning a
line; scan it only outside fences and when it contains Japanese text;
stop after the line whose end reaches `visTo`. -/
def walk (style : Style) (zones : List (Int × Int)) (visTo : Nat) :
    List Line → Nat → Bool → List Deco
  | [], _, _ => []
  | t :: rest, lineFrom, inside =>
    if lineFrom ≤ visTo then
      (if !(if lineTogglesFence t then !inside else inside) && lineQuick t
       then scanLine style zones lineFrom t else []) ++
      (if visTo ≤ lineFrom + t.length then []
       else walk style zones visTo rest (lineFrom + t.length + 1)
              (if lineTogglesFence t then !inside else inside))
    else []

/-- Split a document at the line containing position `pos` (CodeMirror's
`doc.lineAt`): returns the earlier lines, the `from` offset of that line,
and the lines from it on.  `acc` is the offset of the first line of the
list; each line break costs one position. -/
def splitAtPos : Doc → Nat → Nat → (Doc × Nat × Doc)
  | [], acc, _ => ([], acc, [])
  | t :: rest, acc, pos =>
    if pos ≤ acc + t.length then ([], acc, t :: rest)
    else
      ((t :: (splitAtPos rest (acc + t.length + 1) pos).1),
       (splitAtPos rest (acc + t.length + 1) pos).2.1,
       (splitAtPos rest (acc + t.length + 1) pos).2.2)

/-- The fence-state bootstrap of `buildDecorations` (lines 142-148): fold
the fence toggle over every line before the first visible one. -/
def bootFence (pre : Doc) : Bool :=
  pre.foldl (fun b t => if lineTogglesFence t then !b else b) false

/-- The whole-document fast path (`AUTO_QUICK.test(doc.toString())`). -/
def docHasJa (doc : Doc) : Bool := doc.any lineQuick

/-- The editor state consumed by `buildDecorations`: document, viewport,
selection ranges, and IME composition flag. -/
structure EditorState where
  doc : Doc
  visFrom : Nat
  visTo : Nat
  sel : List SelRange
  composing : Bool

/-- `buildDecorations` from src/furiganaLivePreviewMode.ts lines 132-236,
as the ordered list of `builder.add` calls it performs. -/
def buildDecorations (style : Style) (st : EditorState) : List Deco :=
  if !docHasJa st.doc then []
  else
    walk style (noDecorZones st.sel st.composing) st.visTo
      (splitAtPos st.doc 0 st.visFrom).2.2
      (splitAtPos st.doc 0 st.visFrom).2.1
      (bootFence (splitAtPos st.doc 0 st.visFrom).1)

/-- One token of the morphological tokenizer (external interface): surface
form and phonetic reading; an empty reading models an absent one. -/
structure Token where
  surface : Line
  reading : Line
  deriving DecidableEq

/-- One aligned segment as consumed by `RubyWidget.toDOM`: `kanji` is the
list of base chunks, `furi` the list of readings (field names follow
`seg.kanji` / `seg.furi` in the source). -/
structure Seg where
  kanji : List Line
  furi : List Line
  deriving DecidableEq

/-- Modelled from the spec: recognize a whole matched text that is a
manual-override span and peel its brackets (part of the absent
src/furiganaUtils.ts; `getFuriganaSegmentsSync` receives the raw match
text `m[0]`, brackets included, for either bracket style). -/
def stripBrk (text : Line) : Option Line :=
  match text with
  | [] => none
  | c :: rest =>
    if (c == '{' && rest.getLast? == some '}') ||
       (c == '[' && rest.getLast? == some ']') then
      some rest.dropLast
    else none

/-- Modelled from the spec: the automatic branch of the Segment Aligner
(absent src/furiganaUtils.ts).  Each tokenizer token becomes one segment;
a token whose surface is entirely kana, or whose reading is absent, gets
no reading (kana-skip rule). -/
def autoSegs (tokenize : Line → List Token) (text : Line) : List Seg :=
  (tokenize text).map (fun tok =>
    if tok.surface.all isKana || tok.reading.isEmpty then ⟨[tok.surface], []⟩
    else ⟨[tok.surface], [tok.reading]⟩)

/-- Modelled from the spec: the manual branch of the Segment Aligner —
one chunk per base character in the multi-segment case, the whole base in
the single-segment case, as in the README table. -/
def manualSegsOf (base : Line) (rs : List Line) : List Seg :=
  match rs with
  | [r] => [⟨[base], [r]⟩]
  | rs => [⟨base.map (fun c => [c]), rs⟩]

/-- Modelled from the spec: `getFuriganaSegmentsSync` of the absent
src/furiganaUtils.ts.  A valid manual span aligns its base to the reading
segments; any other text goes through the tokenizer branch. -/
def getFuriganaSegmentsSync (tokenize : Line → List Token) (text : Line) :
    List Seg :=
  match stripBrk text with
  | some body =>
    match parseManualBody body with
    | some (base, rs) => manualSegsOf base rs
    | none => autoSegs tokenize text
  | none => autoSegs tokenize text

/-- A rendered node of the widget's DOM: a plain text node, or a ruby
element with aligned base chunks and reading chunks (`makeRuby`, modelled
from the spec as aligned rb/rt pairs). -/
inductive RNode where
  | textN : Line → RNode
  | rubyN : List Line → List Line → RNode
  deriving DecidableEq

/-- The per-segment branch of `RubyWidget.toDOM` (lines 114-121): a
segment whose chunks all pass the kana test becomes a plain text node of
the joined chunks; any other segment becomes a ruby element.  The regex
`^[...]+$` demands a non-empty chunk. -/
def renderSeg (seg : Seg) : RNode :=
  if seg.kanji.all (fun k => !k.isEmpty && k.all isKana) then
    .textN seg.kanji.flatten
  else .rubyN seg.kanji seg.furi

/-- `RubyWidget.toDOM` from src/furiganaLivePreviewMode.ts lines 110-123:
the children of the produced span, for the widget text `text`. -/
def widgetToDOM (tokenize : Line → List Token) (text : Line) : List RNode :=
  (getFuriganaSegmentsSync tokenize text).map renderSeg

/-- Strip all reading nodes from a rendered fragment: text nodes stay,
ruby elements keep only their base chunks, concatenated left to right. -/
def stripReadingNodes (ns : List RNode) : Line :=
  (ns.map (fun n =>
    match n with
    | .textN s => s
    | .rubyN ks _ => ks.flatten)).flatten

/-- Concatenated surface forms of a token list. -/
def concatSurfaces (tks : List Token) : Line := (tks.map Token.surface).flatten

/-- A rendered DOM node for the Reading Mode postprocessor: a text node or
an element with a (lowercase) tag and children. -/
inductive DNode where
  | dtext : Line → DNode
  | delem : String → List DNode → DNode

/-- `isSkippableElement` from src/furiganaReadingMode.ts lines 35-38:
code/pre/script/style and any ruby subtree are not traversed. -/
def isSkippableElement (tag : String) : Bool :=
  tag == "code" || tag == "pre" || tag == "script" || tag == "style" ||
  tag == "ruby"

mutual

/-- `collectTextNodes` from src/furiganaReadingMode.ts lines 44-62, with
each collected text node identified by its child-index path from the root.
Text nodes that are pure whitespace are skipped; skippable elements (and
thereby everything below them) are not traversed. -/
def collectTextNodes : DNode → List (List Nat × Line)
  | .dtext v => if v.any (fun c => !isWS c) then [([], v)] else []
  | .delem tag cs =>
    if isSkippableElement tag then [] else collectChildren cs 0

/-- Collect text nodes of the children starting at child index `i`. -/
def collectChildren : List DNode → Nat → List (List Nat × Line)
  | [], _ => []
  | n :: rest, i =>
    (collectTextNodes n).map (fun q => (i :: q.1, q.2)) ++
      collectChildren rest (i + 1)

end

/-- The node reached from `root` by a child-index path. -/
def nodeAt : DNode → List Nat → Option DNode
  | n, [] => some n
  | .dtext _, _ :: _ => none
  | .delem _ cs, i :: p =>
    match cs.get? i with
    | some c => nodeAt c p
    | none => none

/-- Whether the node at path `q` under `root` is a skippable element. -/
def skippableAt (root : DNode) (q : List Nat) : Bool :=
  match nodeAt root q with
  | some (.delem tag _) => isSkippableElement tag
  | _ => false

mutual

/-- All text content below a node (`textContent`). -/
def textContent : DNode → Line
  | .dtext v => v
  | .delem _ cs => textContentList cs

/-- Text content of a child list. -/
def textContentList : List DNode → Line
  | [] => []
  | n :: rest => textContent n ++ textContentList rest

end

/-- A frontmatter value as far as the skip flag is concerned. -/
inductive FmVal where
  | bv : Bool → FmVal
  | sv : String → FmVal
  deriving DecidableEq, BEq

/-- A document's frontmatter: present or not, as a key-value list. -/
abbrev Fm := Option (List (String × FmVal))

/-- The OFF sentinel set of src/skipOption.ts line 5:
`false`, `"false"`, `"off"`, `"disabled"`. -/
def OFF : List FmVal := [.bv false, .sv "false", .sv "off", .sv "disabled"]

/-- `shouldSkipByPath` from src/skipOption.ts lines 7-12, with the
metadata cache lookup abstracted into the frontmatter argument: skip when
the `auto-furigana` key holds a value in the OFF set. -/
def shouldSkipByPath (fm : Fm) : Bool :=
  match fm with
  | none => false
  | some m =>
    match m.lookup "auto-furigana" with
    | none => false
    | some v => OFF.contains v

/-- The persisted plugin settings (src/settings.ts; the bracket-style
field is `notationStyle` in the source). -/
structure PluginSettings where
  readingMode : Bool
  editingMode : Bool
  style : Style

/-- The Reading Mode postprocessor of src/furiganaReadingMode.ts lines
73-113, reduced to the text nodes it would hand to `convertFurigana`:
nothing when Reading Mode is off or the document's skip flag is set;
otherwise the text nodes collected from every block containing Japanese
text.  The live-preview path (`buildDecorations`) takes no frontmatter
or path input at all. -/
def readingModeTargets (settings : PluginSettings) (fm : Fm)
    (blocks : List DNode) : List (List Nat × Line) :=
  if !settings.readingMode then []
  else if shouldSkipByPath fm then []
  else
    ((blocks.filter (fun b => (textContent b).any isJa)).map
      collectTextNodes).flatten

/-- One transaction of a view update, reduced to the user-event tests the
plugin performs. -/
structure Tr where
  isUserInput : Bool
  isUserDelete : Bool

/-- A `ViewUpdate` as consumed by the plugin's `update` method: the
changed flags, the transactions, and the current composition state of the
view.  A ViewPlugin instance belongs to one EditorView and `u.view` is
that same object, and `composing` is a live getter on it, so the source's
two reads `u.view.composing` and `this.view.composing` both see this one
value — the plugin stores no previous composition flag. -/
structure VUpdate where
  docChanged : Bool
  selectionSet : Bool
  viewportChanged : Bool
  transactions : List Tr
  viewComposing : Bool

/-- The rebuild condition of `update` in src/furiganaLivePreviewMode.ts
lines 253-263: document change, selection change, viewport change, a user
input/delete transaction, or `u.view.composing !== this.view.composing` —
which, because both sides read the same live getter of the same view,
compares `u.viewComposing` with itself. -/
def shouldRebuild (u : VUpdate) : Bool :=
  u.docChanged || u.selectionSet || u.viewportChanged ||
  u.transactions.any (fun t => t.isUserInput || t.isUserDelete) ||
  (u.viewComposing != u.viewComposing)

/-- The effect of `update` on the stored decorations: rebuild via
`buildDecorations` when the condition fires, otherwise keep the old set. -/
def pluginUpdate (style : Style) (cur : EditorState) (old : List Deco)
    (u : VUpdate) : List Deco :=
  if shouldRebuild u then buildDecorations style cur else old

/-- A view update in which IME composition has just started while
document, selection, viewport and user events are all unchanged. -/
def compUpd : VUpdate := ⟨false, false, false, [], true⟩

/-- A one-line Japanese editor state for the C9 evaluation. -/
def stC9 : EditorState := ⟨[['漢', '字']], 0, 2, [], false⟩

/-- Frontmatter carrying the off sentinel for the skip flag. -/
def fmOff : Fm := some [("auto-furigana", .sv "off")]

/-- Settings with both render modes enabled. -/
def bothOn : PluginSettings := ⟨true, true, Style.curly⟩

/-- A rendered paragraph block holding Japanese text. -/
def skipBlock : DNode := .delem "p" [.dtext ['漢', '字']]

/-- The editor state of the same one-line Japanese document. -/
def skipState : EditorState := ⟨[['漢', '字']], 0, 2, [], false⟩

/-- The matched text of the manual override `{漢字|かんじ}`. -/
def mSpanSingle : Line := ['{', '漢', '字', '|', 'か', 'ん', 'じ', '}']

/-- Join reading segments with pipe separators (builds the literal text of
a manual-override reading part). -/
def joinPipe : List Line → Line
  | [] => []
  | [r] => r
  | r :: rest => r ++ '|' :: joinPipe rest

/-- The literal text of a manual-override candidate: opening bracket,
base, pipe, pipe-joined readings, closing bracket. -/
def mkSpan (oc cc : Char) (base : Line) (rs : List Line) : Line :=
  oc :: ((base ++ '|' :: joinPipe rs) ++ [cc])

/-- The spec's scenario line 今日は{漢字|かんじ} as one document line. -/
def lineC3 : Line :=
  ['今', '日', 'は', '{', '漢', '字', '|', 'か', 'ん', 'じ', '}']

/-- The editor state showing that whole line with no selection. -/
def stC3 : EditorState := ⟨[lineC3], 0, 11, [], false⟩

/-- Whether the visible-line loop of `buildDecorations` processes the line
at index `j` of the remaining lines, when the first remaining line starts
at offset `f`: every earlier line must not have reached `visTo`, and the
line's own `from` must not exceed `visTo`. -/
def reaches (visTo : Nat) : List Line → Nat → Nat → Bool
  | [], _, _ => false
  | _ :: _, f, 0 => decide (f ≤ visTo)
  | t :: rest, f, j + 1 =>
    decide (f ≤ visTo) && decide (f + t.length < visTo) &&
      reaches visTo rest (f + t.length + 1) j

/-- The fence state right after the pre-scan toggle of the line at index
`j`, threading the entry state through the remaining lines exactly as the
walk does. -/
def insideThread (inside : Bool) : List Line → Nat → Bool
  | [], _ => inside
  | t :: _, 0 => if lineTogglesFence t then !inside else inside
  | t :: rest, j + 1 =>
    insideThread (if lineTogglesFence t then !inside else inside) rest j

/-- The `from` offset of the line at index `j`, when the first line starts
at offset `f` (each line break costs one position). -/
def startOf (f : Nat) : List Line → Nat → Nat
  | _, 0 => f
  | [], _ + 1 => f
  | t :: rest, j + 1 => startOf (f + t.length + 1) rest j

/-- The state of a one-line Japanese document, caret away at offset 5. -/
def stW : EditorState := ⟨[['漢', '字']], 0, 2, [⟨5, 5⟩], false⟩

/-- A successful `breakAt` decomposes its input. -/
theorem breakAt_eq (cc : Char) :
    ∀ (l b r : List Char), breakAt cc l = some (b, r) → l = b ++ cc :: r := by
  intro l
  induction l with
  | nil => intro b r h; simp [breakAt] at h
  | cons c rest ih =>
    intro b r h
    simp only [breakAt] at h
    by_cases hc : c == cc
    · rw [if_pos hc] at h
      cases h
      simp [eq_of_beq hc]
    · rw [if_neg hc] at h
      match hb : breakAt cc rest with
      | none => rw [hb] at h; exact Option.noConfusion h
      | some (b2, r2) =>
        rw [hb] at h
        simp only [Option.map_some'] at h
        have h' := Option.some.inj h
        have hb1 : b = c :: b2 := (congrArg Prod.fst h').symm
        have hr1 : r = r2 := (congrArg Prod.snd h').symm
        rw [ih b2 r2 hb, hb1, hr1]
        rfl

/-- Stripping readings from rendered segments yields the concatenated base
chunks, whatever the kana test decides per segment. -/
theorem stripReadingNodes_map_renderSeg (segs : List Seg) :
    stripReadingNodes (segs.map renderSeg) =
      (segs.map (fun s => s.kanji.flatten)).flatten := by
  induction segs with
  | nil => rfl
  | cons s rest ih =>
    simp only [List.map_cons, stripReadingNodes, List.flatten_cons] at *
    rw [← ih]
    by_cases h : s.kanji.all (fun k => !k.isEmpty && k.all isKana)
    · simp [renderSeg, h]
    · simp [renderSeg, h]

/-- Flattening a list of singleton chunks restores the original list. -/
theorem flatten_map_singleton (l : List Char) :
    (l.map (fun c => [c])).flatten = l := by
  induction l with
  | nil => rfl
  | cons c rest ih => simp [ih]

/-- Claim C9: the composing disjunct of the rebuild condition compares the
same view's live `composing` value with itself and so never fires — a
composition-state change with document, selection, viewport and user
events all unchanged does NOT make the plugin recompute its decorations.
At the failing input (composition just started, nothing else changed) the
stored decorations stay stale — the empty set is kept even though
`buildDecorations` on the current state is non-empty. -/
theorem composing_change_never_triggers_rebuild :
    (∀ u : VUpdate, shouldRebuild u =
      (u.docChanged || u.selectionSet || u.viewportChanged ||
        u.transactions.any (fun t => t.isUserInput || t.isUserDelete))) ∧
    shouldRebuild compUpd = false ∧
    pluginUpdate Style.curly stC9 [] compUpd = [] ∧
    buildDecorations Style.curly stC9 ≠ [] := by
  refine ⟨?_, by decide, by decide, by decide⟩
  intro u
  simp [shouldRebuild]

/-- Claim C7: with the document's frontmatter skip flag set, the Reading
Mode postprocessor processes nothing, but `buildDecorations` — which takes
no document identifier or frontmatter input at all — still emits a
replacement decoration for the Japanese text, so the Live Preview surface
does scan and decorate the skipped document. -/
theorem skip_flag_ignored_by_live_preview :
    shouldSkipByPath fmOff = true ∧
    readingModeTargets bothOn fmOff [skipBlock] = [] ∧
    buildDecorations Style.curly skipState = [⟨0, 2, .auto, ['漢', '字']⟩] := by
  decide

/-- Claim C4: an automatic token whose surface form is entirely kana is
rendered by `RubyWidget.toDOM` as a plain text node with no reading
annotation, even when the tokenizer supplies a reading for it. -/
theorem kana_token_renders_plain (s rd : Line) (hne : s ≠ [])
    (hk : s.all isKana = true) :
    widgetToDOM (fun _ => [⟨s, rd⟩]) s = [.textN s] := by
  have hstrip : stripBrk s = none := by
    match s, hne with
    | c :: rest, _ =>
      have hc : isKana c = true := List.all_eq_true.mp hk c (List.mem_cons_self c rest)
      have h1 : (c == '{') = false := by
        cases hcc : c == '{'
        · rfl
        · exact absurd (eq_of_beq hcc ▸ hc) (by decide)
      have h2 : (c == '[') = false := by
        cases hcc : c == '['
        · rfl
        · exact absurd (eq_of_beq hcc ▸ hc) (by decide)
      simp [stripBrk, h1, h2]
  have hie : s.isEmpty = false := by
    cases s
    · exact absurd rfl hne
    · rfl
  have hc : (s.all isKana || rd.isEmpty) = true := by rw [hk]; rfl
  have h1 : autoSegs (fun _ => [⟨s, rd⟩]) s = [⟨[s], []⟩] := by
    unfold autoSegs
    simp only [List.map_cons, List.map_nil]
    rw [if_pos hc]
  have h0 : getFuriganaSegmentsSync (fun _ => [⟨s, rd⟩]) s = [⟨[s], []⟩] := by
    unfold getFuriganaSegmentsSync
    simp only [hstrip, h1]
  have hc2 : ([s].all (fun k => !k.isEmpty && k.all isKana)) = true := by
    simp only [List.all_cons, List.all_nil, hie, hk]
    rfl
  unfold widgetToDOM
  rw [h0]
  simp only [List.map_cons, List.map_nil, renderSeg]
  rw [if_pos hc2]
  simp

/-- Witness for C4: the kana token "かな" with the katakana reading "カナ"
supplied by the tokenizer is emitted as plain text. -/
theorem kana_token_renders_plain_w :
    widgetToDOM (fun _ => [⟨['か', 'な'], ['カ', 'ナ']⟩]) ['か', 'な'] =
      [.textN ['か', 'な']] :=
  kana_token_renders_plain ['か', 'な'] ['カ', 'ナ'] (by decide) (by decide)

/-- Claim C1 counterexample: for the valid manual match `{漢字|かんじ}`
(README: rendered as ruby base 漢字 with reading かんじ), stripping the
reading nodes from the produced fragment yields the base `漢字`, not the
matched source text — the brackets, pipe and reading are consumed, so the
round trip to the full matched text fails. -/
theorem strip_manual_match_cex :
    stripReadingNodes (widgetToDOM (fun _ => []) mSpanSingle) = ['漢', '字'] ∧
    stripReadingNodes (widgetToDOM (fun _ => []) mSpanSingle) ≠ mSpanSingle := by
  decide

/-- Claim C1 (amended): stripping all reading nodes from the fragment
reconstructs the annotated base content — for a valid manual match, the
base of the span (delimiters and readings removed); for text resolved
through the tokenizer whose token surfaces concatenate to the text, the
matched text itself, exactly. -/
theorem strip_reading_round_trip (tokenize : Line → List Token) (text : Line) :
    (∀ body base rs, stripBrk text = some body →
        parseManualBody body = some (base, rs) →
        stripReadingNodes (widgetToDOM tokenize text) = base) ∧
    ((stripBrk text = none ∨
        (∃ body, stripBrk text = some body ∧ parseManualBody body = none)) →
      concatSurfaces (tokenize text) = text →
      stripReadingNodes (widgetToDOM tokenize text) = text) := by
  constructor
  · intro body base rs hsb hpb
    have hsegs : getFuriganaSegmentsSync tokenize text = manualSegsOf base rs := by
      unfold getFuriganaSegmentsSync
      simp only [hsb, hpb]
    unfold widgetToDOM
    rw [hsegs]
    match rs with
    | [r] =>
      rw [stripReadingNodes_map_renderSeg]
      simp [manualSegsOf]
    | [] =>
      rw [stripReadingNodes_map_renderSeg]
      simp [manualSegsOf, flatten_map_singleton]
    | r1 :: r2 :: rest =>
      rw [stripReadingNodes_map_renderSeg]
      simp [manualSegsOf, flatten_map_singleton]
  · intro hcase hconcat
    have hsegs : getFuriganaSegmentsSync tokenize text = autoSegs tokenize text := by
      unfold getFuriganaSegmentsSync
      match hcase with
      | .inl hn => simp only [hn]
      | .inr ⟨body, hsb, hpb⟩ => simp only [hsb, hpb]
    unfold widgetToDOM
    rw [hsegs, stripReadingNodes_map_renderSeg]
    have hall : ∀ tks : List Token,
        (((tks.map (fun tok =>
            if tok.surface.all isKana || tok.reading.isEmpty
            then (⟨[tok.surface], []⟩ : Seg)
            else ⟨[tok.surface], [tok.reading]⟩)).map
          (fun s => s.kanji.flatten)).flatten) = concatSurfaces tks := by
      intro tks
      induction tks with
      | nil => rfl
      | cons tok rest ih =>
        simp only [List.map_cons, List.flatten_cons]
        by_cases h : (tok.surface.all isKana || tok.reading.isEmpty) = true
        · rw [if_pos h, ih]
          simp [concatSurfaces]
        · rw [if_neg h, ih]
          simp [concatSurfaces]
    unfold autoSegs
    rw [hall, hconcat]

/-- Witness for C1 (amended): the spec's own example `{漢字|かん|じ}` strips
back to its base `漢字`. -/
theorem strip_reading_round_trip_w :
    stripReadingNodes (widgetToDOM (fun _ => [])
        ['{', '漢', '字', '|', 'か', 'ん', '|', 'じ', '}']) = ['漢', '字'] :=
  (strip_reading_round_trip (fun _ => [])
      ['{', '漢', '字', '|', 'か', 'ん', '|', 'じ', '}']).1
    ['漢', '字', '|', 'か', 'ん', '|', 'じ'] ['漢', '字'] [['か', 'ん'], ['じ']]
    (by decide) (by decide)

/-- `takeRun` over a run of `m` copies of a matching character. -/
theorem takeRun_replicate_append (p : Char → Bool) (c : Char) (hp : p c = true) :
    ∀ (m : Nat) (rest : List Char),
      takeRun p (List.replicate m c ++ rest) = m + takeRun p rest := by
  intro m
  induction m with
  | zero => intro rest; simp
  | succ m ih =>
    intro rest
    rw [List.replicate_succ, List.cons_append, takeRun, if_pos hp, ih]
    omega

/-- `takeRun` of a list whose characters all fail the test. -/
theorem takeRun_none (p : Char → Bool) :
    ∀ (l : List Char), (∀ c ∈ l, p c = false) → takeRun p l = 0 := by
  intro l h
  cases l with
  | nil => rfl
  | cons c rest =>
    rw [takeRun, if_neg]
    rw [h c (List.mem_cons_self c rest)]
    simp

/-- `findClose` finds nothing on a backtick-free list, for any fuel. -/
theorem findClose_no_btick (n : Nat) :
    ∀ (fuel : Nat) (l : List Char) (i : Nat),
      (∀ c ∈ l, (c == btick) = false) → findClose n fuel l i = none := by
  intro fuel
  induction fuel with
  | zero => intro l i _; cases l <;> rfl
  | succ fuel ih =>
    intro l i h
    cases l with
    | nil => rfl
    | cons c rest =>
      have hc := h c (List.mem_cons_self c rest)
      rw [findClose, if_neg (by rw [hc]; simp)]
      exact ih rest (i + 1) (fun x hx => h x (List.mem_cons_of_mem c hx))

/-- Claim C8 counterexample: for the line consisting of one backtick
followed by a Japanese character, the scanner records no code span at all
— the span `[0, 2)` demanded by the claim (opener extended to end of
line, region excluded) does not exist, and the character at offset 1 is
not excluded from annotation. -/
theorem unterminated_opener_cex :
    inlineBacktickRanges [btick, 'あ'] = [] ∧
    hitsCode (inlineBacktickRanges [btick, 'あ']) 1 2 = false := by decide

/-- Claim C8 (amended): scanning an unterminated opening delimiter run
never fails — the scanner is total — but the unterminated opener yields no
code span at all: a line that is an opening backtick run followed by
backtick-free text produces an empty range list, so the region up to the
end of the line stays open to annotation rather than being excluded. -/
theorem unterminated_opener_yields_no_span (k : Nat) (tail : Line)
    (hk : 1 ≤ k) (ht : ∀ c ∈ tail, (c == btick) = false) :
    inlineBacktickRanges (List.replicate k btick ++ tail) = [] := by
  obtain ⟨m, rfl⟩ : ∃ m, k = m + 1 := ⟨k - 1, by omega⟩
  have hself : (btick == btick) = true := by simp
  have hbr : btRun (List.replicate m btick ++ tail) = m := by
    unfold btRun
    rw [takeRun_replicate_append (fun x => x == btick) btick hself m tail,
      takeRun_none (fun x => x == btick) tail ht]
    omega
  have hdrop : (List.replicate m btick ++ tail).drop m = tail := by
    have hl : (List.replicate m btick).length = m := List.length_replicate m btick
    exact List.drop_left' hl
  have hrep : List.replicate (m + 1) btick ++ tail =
      btick :: (List.replicate m btick ++ tail) := by
    rw [List.replicate_succ]
    rfl
  rw [inlineBacktickRanges, hrep]
  have hlen : (btick :: (List.replicate m btick ++ tail)).length =
      (m + tail.length) + 1 := by
    simp [List.length_replicate]
  rw [hlen, ibrAux, if_pos hself, hbr, hdrop,
    findClose_no_btick (m + 1) (m + tail.length) tail (0 + (m + 1)) ht]

/-- `splitPipe` of a pipe-free list is the single part. -/
theorem splitPipe_no_pipe :
    ∀ (l : List Char), (∀ c ∈ l, (c == '|') = false) → splitPipe l = [l] := by
  intro l
  induction l with
  | nil => intro _; rfl
  | cons c rest ih =>
    intro h
    have hc := h c (List.mem_cons_self c rest)
    rw [splitPipe, if_neg (by rw [hc]; simp)]
    rw [ih (fun x hx => h x (List.mem_cons_of_mem c hx))]

/-- `splitPipe` peels a pipe-free part before a pipe. -/
theorem splitPipe_append (a rest : List Char)
    (h : ∀ c ∈ a, (c == '|') = false) :
    splitPipe (a ++ '|' :: rest) = a :: splitPipe rest := by
  induction a with
  | nil => simp [splitPipe]
  | cons c a' ih =>
    have hc := h c (List.mem_cons_self c a')
    rw [List.cons_append, splitPipe, if_neg (by rw [hc]; simp)]
    rw [ih (fun x hx => h x (List.mem_cons_of_mem c hx))]

/-- Characters of a joined reading part are pipes or reading characters. -/
theorem mem_joinPipe :
    ∀ (rs : List Line) (c : Char), c ∈ joinPipe rs →
      c = '|' ∨ ∃ r, r ∈ rs ∧ c ∈ r := by
  intro rs
  induction rs with
  | nil => intro c h; simp [joinPipe] at h
  | cons r rest ih =>
    intro c h
    cases rest with
    | nil =>
      simp only [joinPipe] at h
      exact Or.inr ⟨r, List.mem_cons_self r [], h⟩
    | cons r2 rest2 =>
      simp only [joinPipe] at h
      rcases List.mem_append.mp h with h1 | h2
      · exact Or.inr ⟨r, List.mem_cons_self r (r2 :: rest2), h1⟩
      · rcases List.mem_cons.mp h2 with h3 | h4
        · exact Or.inl h3
        · rcases ih c h4 with h5 | ⟨r', hr', hc'⟩
          · exact Or.inl h5
          · exact Or.inr ⟨r', List.mem_cons_of_mem r hr', hc'⟩

/-- `splitPipe` inverts `joinPipe` on non-empty, pipe-free segment lists. -/
theorem splitPipe_joinPipe :
    ∀ (rs : List Line), rs ≠ [] →
      (∀ r ∈ rs, ∀ c ∈ r, (c == '|') = false) →
      splitPipe (joinPipe rs) = rs := by
  intro rs
  induction rs with
  | nil => intro h _; exact absurd rfl h
  | cons r rest ih =>
    intro _ h
    cases rest with
    | nil =>
      simp only [joinPipe]
      exact splitPipe_no_pipe r (h r (List.mem_cons_self r []))
    | cons r2 rest2 =>
      simp only [joinPipe]
      rw [splitPipe_append r _ (h r (List.mem_cons_self r (r2 :: rest2)))]
      rw [ih (by simp) (fun x hx => h x (List.mem_cons_of_mem r hx))]

/-- `breakAt` splits off a `cc`-free part before the first `cc`. -/
theorem breakAt_append (cc : Char) :
    ∀ (a r : List Char), (∀ c ∈ a, (c == cc) = false) →
      breakAt cc (a ++ cc :: r) = some (a, r) := by
  intro a
  induction a with
  | nil => intro r _; simp [breakAt]
  | cons c a' ih =>
    intro r h
    have hc := h c (List.mem_cons_self c a')
    rw [List.cons_append, breakAt, if_neg (by rw [hc]; simp)]
    rw [ih r (fun x hx => h x (List.mem_cons_of_mem c hx))]
    rfl

/-- The manual scanner finds nothing on a line without the opening
bracket, for any fuel. -/
theorem manualAux_no_open (oc cc : Char) :
    ∀ (fuel : Nat) (l : List Char) (i : Nat),
      (∀ c ∈ l, (c == oc) = false) → manualAux oc cc fuel l i = [] := by
  intro fuel
  induction fuel with
  | zero => intro l i _; cases l <;> rfl
  | succ fuel ih =>
    intro l i h
    cases l with
    | nil => rfl
    | cons c rest =>
      have hc := h c (List.mem_cons_self c rest)
      rw [manualAux, if_neg (by rw [hc]; simp)]
      exact ih rest (i + 1) (fun x hx => h x (List.mem_cons_of_mem c hx))

/-- A kana character is not equal to a non-kana character. -/
theorem kana_not_char (c d : Char) (hk : isKana c = true) (hd : isKana d = false) :
    (c == d) = false := by
  cases h : c == d
  · rfl
  · rw [eq_of_beq h] at hk
    rw [hk] at hd
    exact Bool.noConfusion hd

/-- Claim C2: a curly manual-override candidate with more than one reading
segment is recognized as a match exactly when the number of segments
equals the character count of the base and the base is non-empty; on a
mismatch or an empty base the span is not a match (the manual pass
contributes nothing) and the line falls through to the automatic pass
untouched. -/
theorem manual_mismatch_not_a_match (base : Line) (rs : List Line)
    (hlen : 2 ≤ rs.length)
    (hbase : ∀ c ∈ base,
      (c == '|') = false ∧ (c == '{') = false ∧ (c == '}') = false)
    (hrs : ∀ r ∈ rs, r ≠ [] ∧ r.all isKana = true) :
    (manualMatches Style.curly (mkSpan '{' '}' base rs) = [] ↔
      (rs.length ≠ base.length ∨ base = [])) ∧
    ((rs.length ≠ base.length ∨ base = []) →
      scanLine Style.curly [] 0 (mkSpan '{' '}' base rs) =
        autoDecos Style.curly [] 0 (mkSpan '{' '}' base rs)) := by
  obtain ⟨r1, rs1, rfl⟩ : ∃ r1 rs1, rs = r1 :: rs1 := by
    cases rs with
    | nil => simp at hlen
    | cons a b => exact ⟨a, b, rfl⟩
  have hkana : ∀ r ∈ r1 :: rs1, ∀ c ∈ r, isKana c = true := by
    intro r hr c hc
    exact List.all_eq_true.mp (hrs r hr).2 c hc
  have hjoin : ∀ c ∈ joinPipe (r1 :: rs1),
      (c == '{') = false ∧ (c == '}') = false ∧ (c == '|') = false ∨ c = '|' := by
    intro c hc
    rcases mem_joinPipe (r1 :: rs1) c hc with h | ⟨r, hr, hcr⟩
    · exact Or.inr h
    · have hk := hkana r hr c hcr
      exact Or.inl ⟨kana_not_char c '{' hk (by decide),
        kana_not_char c '}' hk (by decide), kana_not_char c '|' hk (by decide)⟩
  have hbody_cc : ∀ c ∈ base ++ '|' :: joinPipe (r1 :: rs1), (c == '}') = false := by
    intro c hc
    rcases List.mem_append.mp hc with h | h
    · exact (hbase c h).2.2
    · rcases List.mem_cons.mp h with h | h
      · rw [h]; decide
      · rcases hjoin c h with ⟨_, h2, _⟩ | h2
        · exact h2
        · rw [h2]; decide
  have htail_oc : ∀ c ∈ (base ++ '|' :: joinPipe (r1 :: rs1)) ++ ['}'],
      (c == '{') = false := by
    intro c hc
    rcases List.mem_append.mp hc with h | h
    · rcases List.mem_append.mp h with h | h
      · exact (hbase c h).2.1
      · rcases List.mem_cons.mp h with h | h
        · rw [h]; decide
        · rcases hjoin c h with ⟨h2, _, _⟩ | h2
          · exact h2
          · rw [h2]; decide
    · rcases List.mem_cons.mp h with h | h
      · rw [h]; decide
      · simp at h
  have hbrk : breakAt '}' ((base ++ '|' :: joinPipe (r1 :: rs1)) ++ ['}']) =
      some (base ++ '|' :: joinPipe (r1 :: rs1), []) :=
    breakAt_append '}' (base ++ '|' :: joinPipe (r1 :: rs1)) [] hbody_cc
  have hsp : splitPipe (base ++ '|' :: joinPipe (r1 :: rs1)) =
      base :: r1 :: rs1 := by
    rw [splitPipe_append base _ (fun c hc => (hbase c hc).1)]
    rw [splitPipe_joinPipe (r1 :: rs1) (by simp)
      (fun r hr c hc => kana_not_char c '|' (hkana r hr c hc) (by decide))]
  have hall : ((r1 :: rs1).all (fun s => !s.isEmpty && s.all isKana)) = true := by
    rw [List.all_eq_true]
    intro s hs
    obtain ⟨hne, hka⟩ := hrs s hs
    have hie : s.isEmpty = false := by
      cases s
      · exact absurd rfl hne
      · rfl
    rw [hie, hka]
    rfl
  have hlen1 : ¬((r1 :: rs1).length = 1) := by
    simp only [List.length_cons] at hlen ⊢
    omega
  have hpbEq : parseManualBody (base ++ '|' :: joinPipe (r1 :: rs1)) =
      (if base ≠ [] ∧ (r1 :: rs1).length = base.length
       then some (base, r1 :: rs1) else none) := by
    unfold parseManualBody
    simp only [hsp]
    by_cases hc : base ≠ [] ∧ (r1 :: rs1).length = base.length
    · rw [if_pos ⟨hc.1, by rw [hall], Or.inr hc.2⟩, if_pos hc]
    · rw [if_neg, if_neg hc]
      intro ⟨h1, _, h3⟩
      rcases h3 with h3 | h3
      · exact hlen1 h3
      · exact hc ⟨h1, h3⟩
  have hmatches : manualMatches Style.curly (mkSpan '{' '}' base (r1 :: rs1)) =
      (if base ≠ [] ∧ (r1 :: rs1).length = base.length
       then [(0, (base ++ '|' :: joinPipe (r1 :: rs1)).length + 2)] else []) := by
    simp only [manualMatches, mkSpan, List.length_cons]
    rw [manualAux, if_pos (show ('{' == '{') = true by decide)]
    simp only [hbrk]
    rw [hpbEq]
    by_cases hc : base ≠ [] ∧ (r1 :: rs1).length = base.length
    · rw [if_pos hc]
      simp only [Option.isSome_some, if_pos]
      rw [manualAux]
      simp [List.length_append]
      rw [if_pos ⟨hc.1, by simpa using hc.2⟩]
    · rw [if_neg hc]
      simp only [Option.isSome_none, Bool.false_eq_true, if_false]
      rw [if_neg (fun hx => hc ⟨hx.1, by simpa using hx.2⟩)]
      exact manualAux_no_open '{' '}' _ _ (0 + 1) htail_oc
  refine ⟨?_, ?_⟩
  · rw [hmatches]
    by_cases hc : base ≠ [] ∧ (r1 :: rs1).length = base.length
    · rw [if_pos hc]
      constructor
      · intro h
        exact absurd h (by simp)
      · intro h
        rcases h with h | h
        · exact absurd hc.2 h
        · exact absurd h hc.1
    · rw [if_neg hc]
      constructor
      · intro _
        by_cases hb : base = []
        · exact Or.inr hb
        · refine Or.inl (fun hL => hc ⟨hb, hL⟩)
      · intro _
        rfl
  · intro hinv
    have hz : manualMatches Style.curly (mkSpan '{' '}' base (r1 :: rs1)) = [] := by
      rw [hmatches, if_neg]
      intro ⟨h1, h2⟩
      rcases hinv with h | h
      · exact h h2
      · exact h1 h
    simp [scanLine, manualDecos, hz]

/-- Witness for C2: the spec's exemplar `{漢字|か|ん|じ}` — three reading
segments for a two-character base — is not a manual match. -/
theorem manual_mismatch_not_a_match_w :
    manualMatches Style.curly
      (mkSpan '{' '}' ['漢', '字'] [['か'], ['ん'], ['じ']]) = [] :=
  (manual_mismatch_not_a_match ['漢', '字'] [['か'], ['ん'], ['じ']]
      (by decide) (by decide) (by decide)).1.mpr (Or.inl (by decide))

/-- Membership in `collectChildren` decomposes into a child index and a
membership in that child's collection. -/
theorem collectChildren_mem :
    ∀ (cs : List DNode) (i : Nat) (p : List Nat) (v : Line),
      (p, v) ∈ collectChildren cs i →
      ∃ j c p', p = (i + j) :: p' ∧ cs.get? j = some c ∧
        (p', v) ∈ collectTextNodes c := by
  intro cs
  induction cs with
  | nil =>
    intro i p v h
    rw [collectChildren] at h
    exact absurd h (List.not_mem_nil _)
  | cons n rest ih =>
    intro i p v h
    rw [collectChildren] at h
    rcases List.mem_append.mp h with h1 | h2
    · obtain ⟨⟨p0, v0⟩, hm, heq⟩ := List.mem_map.mp h1
      have hp : p = (i + 0) :: p0 := by
        have := (congrArg Prod.fst heq).symm
        simpa using this
      have hv : v = v0 := by
        have := (congrArg Prod.snd heq).symm
        simpa using this
      exact ⟨0, n, p0, hp, rfl, hv ▸ hm⟩
    · obtain ⟨j, c, p', hp, hget, hmem⟩ := ih (i + 1) p v h2
      refine ⟨j + 1, c, p', ?_, ?_, hmem⟩
      · rw [hp]
        congr 1
        omega
      · simpa using hget

/-- One traversal step of `nodeAt` through a child. -/
theorem nodeAt_step (tag : String) (cs : List DNode) (k : Nat)
    (q : List Nat) (c : DNode) (hget : cs.get? k = some c) :
    nodeAt (.delem tag cs) (k :: q) = nodeAt c q := by
  rw [nodeAt]
  simp only [hget]

/-- One traversal step of `skippableAt` through a child. -/
theorem skippableAt_step (tag : String) (cs : List DNode) (k : Nat)
    (q : List Nat) (c : DNode) (hget : cs.get? k = some c) :
    skippableAt (.delem tag cs) (k :: q) = skippableAt c q := by
  unfold skippableAt
  rw [nodeAt_step tag cs k q c hget]

/-- Claim C10: a text node collected by the Reading Mode traversal never
lies under a skippable element — every element on the path from the root
to a collected text node (the node itself included) is neither `code`,
`pre`, `script`, `style` nor `ruby`; re-running the engine on
already-annotated output therefore collects nothing inside the produced
ruby subtrees and never nests annotation. -/
theorem collected_not_under_skippable :
    ∀ (q : List Nat) (root : DNode) (p : List Nat) (v : Line)
      (r : List Nat), (p, v) ∈ collectTextNodes root → q ++ r = p →
      skippableAt root q = false := by
  intro q
  induction q with
  | nil =>
    intro root p v r hmem _
    cases root with
    | dtext s => simp [skippableAt, nodeAt]
    | delem tag cs =>
      by_cases hsk : isSkippableElement tag
      · rw [collectTextNodes, if_pos hsk] at hmem
        exact absurd hmem (List.not_mem_nil _)
      · simp [skippableAt, nodeAt, hsk]
  | cons k q' ih =>
    intro root p v r hmem hpre
    cases root with
    | dtext s =>
      rw [collectTextNodes] at hmem
      by_cases hws : s.any (fun c => !isWS c)
      · rw [if_pos hws] at hmem
        rcases List.mem_singleton.mp hmem with heq
        have : p = [] := by
          have := (congrArg Prod.fst heq)
          simpa using this
        rw [this] at hpre
        exact absurd hpre (by simp)
      · rw [if_neg hws] at hmem
        exact absurd hmem (List.not_mem_nil _)
    | delem tag cs =>
      rw [collectTextNodes] at hmem
      by_cases hsk : isSkippableElement tag
      · rw [if_pos hsk] at hmem
        exact absurd hmem (List.not_mem_nil _)
      · rw [if_neg hsk] at hmem
        obtain ⟨j, c, p', hp, hget, hmem'⟩ := collectChildren_mem cs 0 p v hmem
        have hk : k = j := by
          rw [hp] at hpre
          have := congrArg (fun l => List.head? l) hpre
          simp at this
          omega
        have hq : q' ++ r = p' := by
          rw [hp] at hpre
          have := congrArg (fun l => List.tail l) hpre
          simpa using this
        rw [hk, skippableAt_step tag cs j q' c hget]
        exact ih c p' v r hmem' hq

/-- Witness for C10: a paragraph with one Japanese text child collects the
text node at path `[0]`, and the theorem certifies that no prefix of that
path lands on a skippable element. -/
theorem collected_not_under_skippable_w :
    ([0], ['漢']) ∈ collectTextNodes (.delem "p" [.dtext ['漢']]) ∧
    skippableAt (.delem "p" [.dtext ['漢']]) [] = false :=
  ⟨by decide,
   collected_not_under_skippable [] (.delem "p" [.dtext ['漢']]) [0] ['漢'] [0]
     (by decide) rfl⟩

/-- Witness for C8 (amended): one unterminated backtick before a Japanese
character yields no code span. -/
theorem unterminated_opener_cex_w :
    inlineBacktickRanges (List.replicate 1 btick ++ ['あ']) = [] :=
  unterminated_opener_yields_no_span 1 ['あ'] (by decide) (by decide)

/-- Matches produced by the automatic scanner start at or after the scan
position, are non-empty, and are pairwise disjoint in ascending order. -/
theorem autoAux_inv :
    ∀ (fuel : Nat) (l : List Char) (i : Nat),
      (∀ m ∈ autoAux fuel l i, i ≤ m.1 ∧ m.1 < m.2) ∧
      (autoAux fuel l i).Pairwise (fun p q => p.2 ≤ q.1) := by
  intro fuel
  induction fuel with
  | zero => intro l i; cases l <;> simp [autoAux]
  | succ fuel ih =>
    intro l i
    cases l with
    | nil => simp [autoAux]
    | cons c rest =>
      by_cases hc : isJa c = true
      · rw [autoAux, if_pos hc]
        constructor
        · intro m hm
          rcases List.mem_cons.mp hm with h | h
          · subst h
            exact ⟨le_refl i, show i < i + (takeRun isJa rest + 1) by omega⟩
          · have h1 := (ih (rest.drop (takeRun isJa rest))
              (i + (takeRun isJa rest + 1))).1 m h
            exact ⟨by omega, h1.2⟩
        · refine List.Pairwise.cons ?_ ((ih (rest.drop (takeRun isJa rest))
            (i + (takeRun isJa rest + 1))).2)
          intro q hq
          exact ((ih (rest.drop (takeRun isJa rest))
            (i + (takeRun isJa rest + 1))).1 q hq).1
      · rw [autoAux, if_neg hc]
        refine ⟨fun m hm => ?_, (ih rest (i + 1)).2⟩
        have h1 := (ih rest (i + 1)).1 m hm
        exact ⟨by omega, h1.2⟩

/-- Matches produced by the manual scanner start at or after the scan
position, are non-empty, and are pairwise disjoint in ascending order. -/
theorem manualAux_inv (oc cc : Char) :
    ∀ (fuel : Nat) (l : List Char) (i : Nat),
      (∀ m ∈ manualAux oc cc fuel l i, i ≤ m.1 ∧ m.1 < m.2) ∧
      (manualAux oc cc fuel l i).Pairwise (fun p q => p.2 ≤ q.1) := by
  intro fuel
  induction fuel with
  | zero => intro l i; cases l <;> simp [manualAux]
  | succ fuel ih =>
    intro l i
    cases l with
    | nil => simp [manualAux]
    | cons c rest =>
      by_cases hc : (c == oc) = true
      · rw [manualAux, if_pos hc]
        split
        · next body rest2 _ =>
          split
          · constructor
            · intro m hm
              rcases List.mem_cons.mp hm with h | h
              · subst h
                exact ⟨le_refl i, show i < i + body.length + 2 by omega⟩
              · have h1 := (ih rest2 (i + body.length + 2)).1 m h
                exact ⟨by omega, h1.2⟩
            · refine List.Pairwise.cons ?_ ((ih rest2 (i + body.length + 2)).2)
              intro q hq
              exact ((ih rest2 (i + body.length + 2)).1 q hq).1
          · refine ⟨fun m hm => ?_, (ih rest (i + 1)).2⟩
            have h1 := (ih rest (i + 1)).1 m hm
            exact ⟨by omega, h1.2⟩
        · refine ⟨fun m hm => ?_, (ih rest (i + 1)).2⟩
          have h1 := (ih rest (i + 1)).1 m hm
          exact ⟨by omega, h1.2⟩
      · rw [manualAux, if_neg hc]
        refine ⟨fun m hm => ?_, (ih rest (i + 1)).2⟩
        have h1 := (ih rest (i + 1)).1 m hm
        exact ⟨by omega, h1.2⟩

/-- The manual match list of any line is ascending and disjoint. -/
theorem manualMatches_sorted (style : Style) (t : Line) :
    (manualMatches style t).Pairwise (fun p q => p.2 ≤ q.1) := by
  cases style with
  | curly => exact (manualAux_inv '{' '}' t.length t 0).2
  | square => exact (manualAux_inv '[' ']' t.length t 0).2
  | nostyle => exact List.Pairwise.nil

/-- The automatic match list of any line is ascending and disjoint. -/
theorem autoMatches_sorted (t : Line) :
    (autoMatches t).Pairwise (fun p q => p.2 ≤ q.1) :=
  (autoAux_inv t.length t 0).2

/-- Claim C3 (amended): the decorations of one scanned line are emitted as
the manual pass followed by the automatic pass; within each pass the spans
are in ascending, non-overlapping order, and every emitted decoration
overlaps neither an inline code span of its line nor a caret-buffer zone.
(Automatic matches are not checked against manual match spans, so across
the two passes the sequence can be out of order and overlapping — see the
counterexample.) -/
theorem scanLine_per_pass_sorted (style : Style) (zones : List (Int × Int))
    (lineFrom : Nat) (t : Line) :
    scanLine style zones lineFrom t =
      manualDecos style zones lineFrom t ++ autoDecos style zones lineFrom t ∧
    (manualDecos style zones lineFrom t).Pairwise
      (fun a b => a.daTo ≤ b.daFrom) ∧
    (autoDecos style zones lineFrom t).Pairwise
      (fun a b => a.daTo ≤ b.daFrom) ∧
    ∀ d ∈ scanLine style zones lineFrom t,
      zoneHit zones d.daFrom d.daTo = false ∧
      ∃ a b, d.daFrom = lineFrom + a ∧ d.daTo = lineFrom + b ∧
        hitsCode (inlineBacktickRanges t) a b = false := by
  refine ⟨rfl, ?_, ?_, ?_⟩
  · rw [manualDecos, List.pairwise_map]
    refine List.Pairwise.sublist (List.filter_sublist _) ?_
    refine (manualMatches_sorted style t).imp ?_
    intro p q h
    simpa using Nat.add_le_add_left h lineFrom
  · rw [autoDecos, List.pairwise_map]
    refine List.Pairwise.sublist (List.filter_sublist _) ?_
    refine (autoMatches_sorted t).imp ?_
    intro p q h
    simpa using Nat.add_le_add_left h lineFrom
  · intro d hd
    rw [scanLine] at hd
    rcases List.mem_append.mp hd with h | h
    · rw [manualDecos] at h
      obtain ⟨m, hm, heq⟩ := List.mem_map.mp h
      have hkeep := (List.mem_filter.mp hm).2
      rw [Bool.and_eq_true] at hkeep
      have h1 : hitsCode (inlineBacktickRanges t) m.1 m.2 = false := by
        simpa using hkeep.1
      have h2 : zoneHit zones (lineFrom + m.1) (lineFrom + m.2) = false := by
        simpa using hkeep.2
      subst heq
      exact ⟨h2, m.1, m.2, rfl, rfl, h1⟩
    · rw [autoDecos] at h
      obtain ⟨m, hm, heq⟩ := List.mem_map.mp h
      have hkeep := (List.mem_filter.mp hm).2
      rw [Bool.and_eq_true] at hkeep
      have h1 : hitsCode (inlineBacktickRanges t) m.1 m.2 = false := by
        simpa using hkeep.1
      have h2 : zoneHit zones (lineFrom + m.1) (lineFrom + m.2) = false := by
        simpa using hkeep.2
      subst heq
      exact ⟨h2, m.1, m.2, rfl, rfl, h1⟩

/-- Claim C3 counterexample: on 今日は{漢字|かんじ}, `buildDecorations`
emits the manual span [3,11) before the automatic span [0,3) — the
sequence of `builder.add` spans is not ascending — and automatic matches
overlapping the manual match span are not suppressed: a manual decoration
and an automatic decoration in the output overlap. -/
theorem buildDecorations_order_cex :
    ¬ ((buildDecorations Style.curly stC3).Pairwise
        (fun a b => a.daTo ≤ b.daFrom)) ∧
    (∃ d1 ∈ buildDecorations Style.curly stC3,
      ∃ d2 ∈ buildDecorations Style.curly stC3,
        d1.kind = MKind.manual ∧ d2.kind = MKind.auto ∧
        overlaps d1.daFrom d1.daTo d2.daFrom d2.daTo = true) := by
  decide

/-- Witness for C3 (amended): on the scenario line, the manual decoration
at span [3,11) carries relative offsets that avoid every inline code span
and caret zone. -/
theorem scanLine_per_pass_sorted_w :
    zoneHit [] 3 11 = false ∧
    ∃ a b, (3 : Nat) = 0 + a ∧ (11 : Nat) = 0 + b ∧
      hitsCode (inlineBacktickRanges lineC3) a b = false :=
  (scanLine_per_pass_sorted Style.curly [] 0 lineC3).2.2.2
    ⟨3, 11, .manual, ['{', '漢', '字', '|', 'か', 'ん', 'じ', '}']⟩ (by decide)

/-- Membership in the visible-line walk, characterized per line: a
decoration is emitted exactly when some processed line, with fence state
false after its own toggle and containing Japanese text, emits it from its
scan. -/
theorem walk_mem_iff (style : Style) (zones : List (Int × Int)) (visTo : Nat) :
    ∀ (suf : List Line) (f : Nat) (inside : Bool) (d : Deco),
      d ∈ walk style zones visTo suf f inside ↔
      ∃ j t, suf.get? j = some t ∧ reaches visTo suf f j = true ∧
        insideThread inside suf j = false ∧ lineQuick t = true ∧
        d ∈ scanLine style zones (startOf f suf j) t := by
  intro suf
  induction suf with
  | nil =>
    intro f inside d
    constructor
    · intro h
      exact absurd h (List.not_mem_nil d)
    · rintro ⟨j, t, hget, _⟩
      simp at hget
  | cons t rest ih =>
    intro f inside d
    rw [walk]
    by_cases hf : f ≤ visTo
    · rw [if_pos hf]
      by_cases hbreak : visTo ≤ f + t.length
      · rw [if_pos hbreak, List.append_nil]
        constructor
        · intro hd
          by_cases hcond :
              (!(if lineTogglesFence t then !inside else inside) &&
                lineQuick t) = true
          · rw [if_pos hcond] at hd
            rw [Bool.and_eq_true] at hcond
            refine ⟨0, t, rfl, by simp [reaches, hf], ?_, hcond.2, hd⟩
            have h1 := hcond.1
            simp only [Bool.not_eq_true'] at h1
            exact h1
          · rw [if_neg hcond] at hd
            exact absurd hd (List.not_mem_nil d)
        · rintro ⟨j, t', hget, hreach, hthread, hquick, hmem⟩
          cases j with
          | zero =>
            obtain rfl : t = t' := by simpa using hget
            have hcond :
                (!(if lineTogglesFence t then !inside else inside) &&
                  lineQuick t) = true := by
              rw [Bool.and_eq_true]
              refine ⟨?_, hquick⟩
              simp only [Bool.not_eq_true']
              exact hthread
            rw [if_pos hcond]
            exact hmem
          | succ j =>
            exfalso
            rw [reaches, Bool.and_eq_true, Bool.and_eq_true] at hreach
            have := of_decide_eq_true hreach.1.2
            omega
      · rw [if_neg hbreak]
        constructor
        · intro hd
          rcases List.mem_append.mp hd with h1 | h2
          · by_cases hcond :
                (!(if lineTogglesFence t then !inside else inside) &&
                  lineQuick t) = true
            · rw [if_pos hcond] at h1
              rw [Bool.and_eq_true] at hcond
              refine ⟨0, t, rfl, by simp [reaches, hf], ?_, hcond.2, h1⟩
              have hx := hcond.1
              simp only [Bool.not_eq_true'] at hx
              exact hx
            · rw [if_neg hcond] at h1
              exact absurd h1 (List.not_mem_nil d)
          · obtain ⟨j, t', hget, hreach, hthread, hquick, hmem⟩ :=
              (ih (f + t.length + 1)
                (if lineTogglesFence t then !inside else inside) d).mp h2
            refine ⟨j + 1, t', by simpa using hget, ?_, hthread, hquick, hmem⟩
            rw [reaches, Bool.and_eq_true, Bool.and_eq_true]
            exact ⟨⟨decide_eq_true hf, decide_eq_true (by omega)⟩, hreach⟩
        · rintro ⟨j, t', hget, hreach, hthread, hquick, hmem⟩
          cases j with
          | zero =>
            obtain rfl : t = t' := by simpa using hget
            refine List.mem_append.mpr (Or.inl ?_)
            have hcond :
                (!(if lineTogglesFence t then !inside else inside) &&
                  lineQuick t) = true := by
              rw [Bool.and_eq_true]
              refine ⟨?_, hquick⟩
              simp only [Bool.not_eq_true']
              exact hthread
            rw [if_pos hcond]
            exact hmem
          | succ j =>
            refine List.mem_append.mpr (Or.inr ?_)
            refine (ih (f + t.length + 1)
              (if lineTogglesFence t then !inside else inside) d).mpr ?_
            refine ⟨j, t', by simpa using hget, ?_, hthread, hquick, hmem⟩
            rw [reaches, Bool.and_eq_true, Bool.and_eq_true] at hreach
            exact hreach.2
    · rw [if_neg hf]
      constructor
      · intro hd
        exact absurd hd (List.not_mem_nil d)
      · rintro ⟨j, t', hget, hreach, _, _, _⟩
        exfalso
        cases j with
        | zero =>
          rw [reaches] at hreach
          exact absurd (of_decide_eq_true hreach) hf
        | succ j =>
          rw [reaches, Bool.and_eq_true, Bool.and_eq_true] at hreach
          exact absurd (of_decide_eq_true hreach.1.1) hf

/-- Parity of a successor count flips. -/
theorem parity_succ (n : Nat) :
    decide ((n + 1) % 2 = 1) = !decide (n % 2 = 1) := by
  by_cases h : n % 2 = 1
  · have h2 : (n + 1) % 2 = 0 := by omega
    simp [h, h2]
  · have h2 : (n + 1) % 2 = 1 := by omega
    simp [h, h2]

/-- Parity of a sum is the exclusive or of the parities. -/
theorem parity_add (a b : Nat) :
    decide ((a + b) % 2 = 1) =
      xor (decide (a % 2 = 1)) (decide (b % 2 = 1)) := by
  by_cases ha : a % 2 = 1 <;> by_cases hb : b % 2 = 1
  · have h : (a + b) % 2 = 0 := by omega
    simp [ha, hb, h]
  · have h : (a + b) % 2 = 1 := by omega
    simp [ha, hb, h]
  · have h : (a + b) % 2 = 1 := by omega
    simp [ha, hb, h]
  · have h : (a + b) % 2 = 0 := by omega
    simp [ha, hb, h]

/-- The fence-toggle fold computes the exclusive or of the entry state
with the parity of the number of toggle lines. -/
theorem foldFence_parity :
    ∀ (pre : Doc) (b : Bool),
      pre.foldl (fun b t => if lineTogglesFence t then !b else b) b =
        xor b (decide ((pre.countP lineTogglesFence) % 2 = 1)) := by
  intro pre
  induction pre with
  | nil => intro b; simp
  | cons t rest ih =>
    intro b
    rw [List.foldl_cons, ih]
    by_cases h : lineTogglesFence t = true
    · have hc : (t :: rest).countP lineTogglesFence =
          rest.countP lineTogglesFence + 1 := by
        simp [List.countP_cons, h]
      rw [if_pos h, hc, parity_succ]
      cases b <;>
        cases hd : decide ((rest.countP lineTogglesFence) % 2 = 1) <;> simp
    · have hc : (t :: rest).countP lineTogglesFence =
          rest.countP lineTogglesFence := by
        simp [List.countP_cons, h]
      rw [if_neg h, hc]

/-- The fence-state bootstrap equals the toggle-count parity of the lines
before the first visible line — the causal fence state. -/
theorem bootFence_parity (pre : Doc) :
    bootFence pre = decide ((pre.countP lineTogglesFence) % 2 = 1) := by
  rw [bootFence, foldFence_parity]
  simp

/-- The threaded fence state at index `j` equals the entry state xor the
toggle parity of the first `j + 1` remaining lines. -/
theorem insideThread_parity :
    ∀ (suf : List Line) (j : Nat) (inside : Bool),
      insideThread inside suf j =
        xor inside
          (decide (((suf.take (j + 1)).countP lineTogglesFence) % 2 = 1)) := by
  intro suf
  induction suf with
  | nil =>
    intro j inside
    simp [insideThread]
  | cons t rest ih =>
    intro j inside
    cases j with
    | zero =>
      by_cases h : lineTogglesFence t = true
      · have hc : (((t :: rest).take 1).countP lineTogglesFence) = 1 := by
          simp [List.countP_cons, h]
        rw [insideThread, if_pos h, hc]
        cases inside <;> simp
      · have hc : (((t :: rest).take 1).countP lineTogglesFence) = 0 := by
          simp [List.countP_cons, h]
        rw [insideThread, if_neg h, hc]
        cases inside <;> simp
    | succ j =>
      rw [insideThread, ih j (if lineTogglesFence t then !inside else inside)]
      by_cases h : lineTogglesFence t = true
      · have hc : (((t :: rest).take (j + 1 + 1)).countP lineTogglesFence) =
            ((rest.take (j + 1)).countP lineTogglesFence) + 1 := by
          simp [List.take_succ_cons, List.countP_cons, h]
        rw [if_pos h, hc, parity_succ]
        cases inside <;>
          cases hd :
            decide (((rest.take (j + 1)).countP lineTogglesFence) % 2 = 1) <;>
          simp
      · have hc : (((t :: rest).take (j + 1 + 1)).countP lineTogglesFence) =
            (rest.take (j + 1)).countP lineTogglesFence := by
          simp [List.take_succ_cons, List.countP_cons, h]
        rw [if_neg h, hc]

/-- `splitAtPos` decomposes the document into its two line lists. -/
theorem splitAtPos_append :
    ∀ (doc : Doc) (acc pos : Nat),
      (splitAtPos doc acc pos).1 ++ (splitAtPos doc acc pos).2.2 = doc := by
  intro doc
  induction doc with
  | nil => intro acc pos; rfl
  | cons t rest ih =>
    intro acc pos
    rw [splitAtPos]
    by_cases h : pos ≤ acc + t.length
    · rw [if_pos h]
      rfl
    · rw [if_neg h]
      simp only [List.cons_append]
      rw [ih (acc + t.length + 1) pos]

/-- The `from` offset returned by `splitAtPos` is the offset right after
the earlier lines. -/
theorem splitAtPos_from :
    ∀ (doc : Doc) (acc pos : Nat),
      (splitAtPos doc acc pos).2.1 =
        startOf acc (splitAtPos doc acc pos).1
          ((splitAtPos doc acc pos).1.length) := by
  intro doc
  induction doc with
  | nil => intro acc pos; rfl
  | cons t rest ih =>
    intro acc pos
    rw [splitAtPos]
    by_cases h : pos ≤ acc + t.length
    · rw [if_pos h]
      rfl
    · rw [if_neg h]
      simp only [List.length_cons]
      rw [startOf]
      exact ih (acc + t.length + 1) pos

/-- Line offsets compose across an append. -/
theorem startOf_append :
    ∀ (xs ys : List Line) (f j : Nat),
      startOf f (xs ++ ys) (xs.length + j) =
        startOf (startOf f xs xs.length) ys j := by
  intro xs
  induction xs with
  | nil => intro ys f j; simp [startOf]
  | cons t rest ih =>
    intro ys f j
    simp only [List.cons_append, List.length_cons]
    have hidx : rest.length + 1 + j = (rest.length + j) + 1 := by omega
    rw [hidx, startOf, startOf, ih ys (f + t.length + 1) j]

/-- Taking past an appended prefix keeps the prefix whole. -/
theorem take_append_len :
    ∀ (xs ys : List Line) (n : Nat),
      (xs ++ ys).take (xs.length + n) = xs ++ ys.take n := by
  intro xs
  induction xs with
  | nil => intro ys n; simp
  | cons t rest ih =>
    intro ys n
    simp only [List.cons_append, List.length_cons]
    have hidx : rest.length + 1 + n = (rest.length + n) + 1 := by omega
    rw [hidx, List.take_succ_cons, ih ys n]

/-- Claim C5: the fence state entering the visible-line walk equals the
toggle-count parity of all lines before the first visible one, computed
from the start of the document; consequently every emitted decoration
comes from a document line whose causally computed fence state — the
parity of toggle lines from the document start, the line's own toggle
included — is "outside".  A line inside a fenced block opened before the
viewport therefore contributes no decorations, at any scroll position. -/
theorem fence_state_causal (style : Style) (st : EditorState) :
    bootFence (splitAtPos st.doc 0 st.visFrom).1 =
      decide ((((splitAtPos st.doc 0 st.visFrom).1).countP
        lineTogglesFence) % 2 = 1) ∧
    ∀ d ∈ buildDecorations style st,
      ∃ n t, st.doc.get? n = some t ∧
        decide (((st.doc.take (n + 1)).countP lineTogglesFence) % 2 = 1)
          = false ∧
        lineQuick t = true ∧
        d ∈ scanLine style (noDecorZones st.sel st.composing)
            (startOf 0 st.doc n) t := by
  refine ⟨bootFence_parity _, ?_⟩
  intro d hd
  rcases hsp : splitAtPos st.doc 0 st.visFrom with ⟨pre, f0, fsuf⟩
  have hdoc : pre ++ fsuf = st.doc := by
    have h := splitAtPos_append st.doc 0 st.visFrom
    rw [hsp] at h
    exact h
  have hfrom : f0 = startOf 0 pre pre.length := by
    have h := splitAtPos_from st.doc 0 st.visFrom
    rw [hsp] at h
    exact h
  rw [buildDecorations, hsp] at hd
  by_cases hja : docHasJa st.doc = true
  · rw [if_neg (by rw [hja]; simp)] at hd
    obtain ⟨j, t, hget, hreach, hthread, hquick, hmem⟩ :=
      (walk_mem_iff style (noDecorZones st.sel st.composing) st.visTo
        fsuf f0 (bootFence pre) d).mp hd
    refine ⟨pre.length + j, t, ?_, ?_, hquick, ?_⟩
    · rw [← hdoc, List.get?_append_right (by omega)]
      have hidx : pre.length + j - pre.length = j := by omega
      rw [hidx]
      exact hget
    · rw [← hdoc]
      have hidx : pre.length + j + 1 = pre.length + (j + 1) := by omega
      rw [hidx, take_append_len, List.countP_append, parity_add]
      rw [insideThread_parity, bootFence_parity] at hthread
      exact hthread
    · rw [← hdoc, startOf_append, ← hfrom]
      exact hmem
  · exfalso
    have hja2 : docHasJa st.doc = false := by
      revert hja
      cases docHasJa st.doc <;> simp
    rw [if_pos (by rw [hja2]; rfl)] at hd
    exact absurd hd (List.not_mem_nil d)

/-- Witness for C5: the decoration of a one-line document is traced to
line 0 with outside fence parity. -/
theorem fence_state_causal_w :
    ∃ n t, (stW.doc).get? n = some t ∧
      decide (((stW.doc.take (n + 1)).countP lineTogglesFence) % 2 = 1)
        = false ∧
      lineQuick t = true ∧
      (⟨0, 2, .auto, ['漢', '字']⟩ : Deco) ∈ scanLine Style.curly
        (noDecorZones stW.sel stW.composing) (startOf 0 stW.doc n) t :=
  (fence_state_causal Style.curly stW).2 ⟨0, 2, .auto, ['漢', '字']⟩ (by decide)

/-- Every decoration emitted by the line scan avoids every caret zone. -/
theorem scanLine_zone_free (style : Style) (zones : List (Int × Int))
    (f : Nat) (t : Line) :
    ∀ d ∈ scanLine style zones f t, zoneHit zones d.daFrom d.daTo = false := by
  intro d hd
  rw [scanLine] at hd
  rcases List.mem_append.mp hd with h | h
  · rw [manualDecos] at h
    obtain ⟨m, hm, heq⟩ := List.mem_map.mp h
    have hkeep := (List.mem_filter.mp hm).2
    rw [Bool.and_eq_true] at hkeep
    subst heq
    simpa using hkeep.2
  · rw [autoDecos] at h
    obtain ⟨m, hm, heq⟩ := List.mem_map.mp h
    have hkeep := (List.mem_filter.mp hm).2
    rw [Bool.and_eq_true] at hkeep
    subst heq
    simpa using hkeep.2

/-- A span reported free of zone hits overlaps no single zone. -/
theorem zoneHit_false_all (zones : List (Int × Int)) (a b : Nat)
    (h : zoneHit zones a b = false) :
    ∀ z ∈ zones, overlaps a b z.1 z.2 = false := by
  rw [zoneHit, List.any_eq_false] at h
  intro z hz
  have h2 := h z hz
  simpa using h2

/-- A match that survives both exclusion filters is emitted by the line
scan. -/
theorem scanLine_keep_intro (style : Style) (zones : List (Int × Int))
    (f : Nat) (t : Line) (k : MKind) (m : Nat × Nat)
    (hm : m ∈ matchesOf k style t)
    (h1 : hitsCode (inlineBacktickRanges t) m.1 m.2 = false)
    (h2 : zoneHit zones (f + m.1) (f + m.2) = false) :
    mkDeco k f t m ∈ scanLine style zones f t := by
  rw [scanLine]
  cases k with
  | manual =>
    refine List.mem_append.mpr (Or.inl ?_)
    rw [manualDecos]
    refine List.mem_map.mpr ⟨m, ?_, rfl⟩
    refine List.mem_filter.mpr ⟨hm, ?_⟩
    rw [Bool.and_eq_true]
    exact ⟨by simp [h1], by simp [h2]⟩
  | auto =>
    refine List.mem_append.mpr (Or.inr ?_)
    rw [autoDecos]
    refine List.mem_map.mpr ⟨m, ?_, rfl⟩
    refine List.mem_filter.mpr ⟨hm, ?_⟩
    rw [Bool.and_eq_true]
    exact ⟨by simp [h1], by simp [h2]⟩

/-- Claim C6: no emitted decoration overlaps any caret-buffer zone — a
zone of half-width 1 around each selection anchor and head, widened to 2
while IME composition is active — and conversely a match of a processed,
fence-free, Japanese-bearing line that overlaps no zone and no inline
code span IS emitted, so a match omitted only for caret proximity
reappears on a rebuild whose selection has moved away. -/
theorem caret_zone_suppression (style : Style) (st : EditorState) :
    (∀ d ∈ buildDecorations style st,
      ∀ z ∈ noDecorZones st.sel st.composing,
        overlaps d.daFrom d.daTo z.1 z.2 = false) ∧
    (∀ (pre : Doc) (f0 : Nat) (fsuf : Doc) (j : Nat) (t : Line)
        (k : MKind) (m : Nat × Nat),
      splitAtPos st.doc 0 st.visFrom = (pre, f0, fsuf) →
      docHasJa st.doc = true →
      fsuf.get? j = some t →
      reaches st.visTo fsuf f0 j = true →
      insideThread (bootFence pre) fsuf j = false →
      lineQuick t = true →
      m ∈ matchesOf k style t →
      hitsCode (inlineBacktickRanges t) m.1 m.2 = false →
      zoneHit (noDecorZones st.sel st.composing)
        (startOf f0 fsuf j + m.1) (startOf f0 fsuf j + m.2) = false →
      mkDeco k (startOf f0 fsuf j) t m ∈ buildDecorations style st) := by
  constructor
  · intro d hd z hz
    rw [buildDecorations] at hd
    by_cases hja : docHasJa st.doc = true
    · rw [if_neg (by rw [hja]; simp)] at hd
      obtain ⟨j, t, _, _, _, _, hmem⟩ :=
        (walk_mem_iff style (noDecorZones st.sel st.composing) st.visTo
          (splitAtPos st.doc 0 st.visFrom).2.2
          (splitAtPos st.doc 0 st.visFrom).2.1
          (bootFence (splitAtPos st.doc 0 st.visFrom).1) d).mp hd
      exact zoneHit_false_all _ _ _
        (scanLine_zone_free style _ _ _ d hmem) z hz
    · exfalso
      have hja2 : docHasJa st.doc = false := by
        revert hja
        cases docHasJa st.doc <;> simp
      rw [if_pos (by rw [hja2]; rfl)] at hd
      exact absurd hd (List.not_mem_nil d)
  · intro pre f0 fsuf j t k m hsp hja hget hreach hthread hquick hm h1 h2
    rw [buildDecorations, hsp, if_neg (by rw [hja]; simp)]
    exact (walk_mem_iff style (noDecorZones st.sel st.composing) st.visTo
      fsuf f0 (bootFence pre) (mkDeco k (startOf f0 fsuf j) t m)).mpr
      ⟨j, t, hget, hreach, hthread, hquick,
        scanLine_keep_intro style _ (startOf f0 fsuf j) t k m hm h1 h2⟩

/-- Witness for C6: with the caret away at offset 5, the automatic match
over 漢字 survives into the decoration set. -/
theorem caret_zone_suppression_w :
    mkDeco .auto (startOf 0 [['漢', '字']] 0) ['漢', '字'] (0, 2) ∈
      buildDecorations Style.curly stW :=
  (caret_zone_suppression Style.curly stW).2 [] 0 [['漢', '字']] 0
    ['漢', '字'] .auto (0, 2) (by decide) (by decide) (by decide) (by decide)
    (by decide) (by decide) (by decide) (by decide) (by decide)
